import Mathlib

/-!
Verification of `RenameExtension.py`.

Shallow embedding conventions:
* A string is a `List Nat` of character code points (`Str`).
* `toLower` models Python `str.lower` / the lowercasing performed by
  `os.path.normcase` on Windows (the case-insensitive target platform);
  it maps the codes of `A`..`Z` to `a`..`z` and fixes everything else,
  which is faithful for the ASCII inputs the program manipulates.
* The filesystem seen by one invocation is the directory index that
  `os.walk(path, topdown=False)` enumerates: a list of
  `(directory path, file names)` entries in bottom-up order (`Fs`).
  Only files are renamed and every rename stays inside its own
  directory, so each directory's listing evolves independently.
  `os.path.exists` on the case-insensitive filesystem is modelled by a
  case-insensitive membership test in the directory's current listing.
* `os.path.isdir(path)` holds iff `path` occurs in the directory index.
* The observable behaviour of a walk is its list of `Event`s: one
  `Event.renamed` per performed rename (the `safe_rename` call on
  line 62) and one `Event.skipped` per skipped collision (the warning
  printed on line 60).  The `SkipReport` of the specification is the
  ordered list of `(source path, reason)` pairs derived from the
  skipped events.
-/

namespace RenameExtension

/-- Strings are lists of character code points. -/
abbrev Str : Type := List Nat

/-- The directory index of one tree walk: `(directory path, files)`
entries in the bottom-up order produced by `os.walk(_, topdown=False)`. -/
abbrev Fs : Type := List (Str × List Str)

/-- ASCII lowercasing of one code point, as done by `str.lower` and by
`os.path.normcase` on Windows. -/
def toLower (c : Nat) : Nat := if 65 ≤ c ∧ c ≤ 90 then c + 32 else c

/-- Whitespace test for `str.strip` (ASCII whitespace code points). -/
def isSpaceB (c : Nat) : Bool :=
  (c == 32) || (c == 9) || (c == 10) || (c == 13) || (c == 11) || (c == 12)

/-- Python `str.strip`: drop leading and trailing whitespace. -/
def strip (l : Str) : Str :=
  ((l.dropWhile isSpaceB).reverse.dropWhile isSpaceB).reverse

/-- Python `str.startswith('.')`. -/
def startsDot : Str → Bool
  | [] => false
  | c :: _ => c == 46

/-- `normalize_ext` (RenameExtension.py lines 20-25):
`ext = ext.strip().lower()`, then prepend a dot unless already present. -/
def normalize_ext (e : Str) : Str :=
  if startsDot ((strip e).map toLower) then (strip e).map toLower
  else 46 :: (strip e).map toLower

/-- Python `str.endswith`: `s` is a suffix of `l`. -/
def endswith (l s : Str) : Bool := l.drop (l.length - s.length) == s

/-- The file-selection test of line 53: `fname.lower().endswith(old_ext)`. -/
def matchesExt (f ext : Str) : Bool := endswith (f.map toLower) ext

/-- Case-insensitive suffix comparison, the specification's phrasing of
the selection test ("ends with `old_ext` compared case-insensitively"). -/
def endswithCI (l s : Str) : Bool := endswith (l.map toLower) (s.map toLower)

/-- `os.path.normcase` on the case-insensitive target platform:
lowercase the path. -/
def normcase (p : Str) : Str := p.map toLower

/-- The path separator code point. -/
def sep : Nat := 47

/-- `os.path.join` of a directory and an entry name. -/
def joinP (d f : Str) : Str := d ++ sep :: f

/-- `os.path.dirname`: everything before the last separator. -/
def dirname (p : Str) : Str :=
  ((p.reverse.dropWhile (fun c => !(c == sep))).drop 1).reverse

/-- The code points of the skip reason string `"target exists"`. -/
def strTargetExists : Str := [116, 97, 114, 103, 101, 116, 32, 101, 120, 105, 115, 116, 115]

/-- One observable action of the tree walk: a performed rename (the
`safe_rename` call on line 62) or a skipped collision (the warning
printed on line 60).  All three fields are names/paths inside one
directory: the directory path, the source file name and the candidate
new file name. -/
inductive Event where
  | renamed (dir fname newName : Str)
  | skipped (dir fname newName : Str)
deriving DecidableEq

/-- The directory an event happened in. -/
def evDir : Event → Str
  | .renamed d _ _ => d
  | .skipped d _ _ => d

/-- Whether an event is a skipped collision. -/
def isSkipped : Event → Bool
  | .skipped _ _ _ => true
  | .renamed _ _ _ => false

/-- The `(source path, reason)` pair of a skipped event. -/
def skipPairOf : Event → Str × Str
  | .skipped d f _ => (joinP d f, strTargetExists)
  | .renamed _ _ _ => ([], [])

/-- The SkipReport of one walk: the ordered `(source path, reason)`
pairs of the warnings printed on line 60, one per skipped collision. -/
def skipReport (evs : List Event) : List (Str × Str) :=
  evs.filterMap fun e =>
    match e with
    | .skipped d f _ => some (joinP d f, strTargetExists)
    | .renamed _ _ _ => none

/-- The candidate new name of lines 54-55:
`base = fname[:-len(old_ext)]; new_name = base + new_ext`. -/
def newNameF (o n f : Str) : Str := f.take (f.length - o.length) ++ n

/-- Effect of a successful rename on the directory listing: the source
name is replaced by the destination name. -/
def renameIn (cur : List Str) (f nn : Str) : List Str := nn :: cur.erase f

/-- `os.path.exists` for a name inside the directory whose current
listing is `cur`, on a case-insensitive filesystem: some entry has the
same `normcase` image. -/
def existsIn (cur : List Str) (nn : Str) : Bool :=
  cur.any fun g => normcase g == normcase nn

/-- Lines 52-62 for a single file `f` of directory `d`: if the (already
normalized) old extension matches, compute the candidate new name and
either record a skipped collision (`exists(new_path) and not
normcase(old_path) == normcase(new_path)`, line 59) or perform the
rename.  `st` is the pair (current listing of `d`, events so far). -/
def stepFile (d o n : Str) (st : List Str × List Event) (f : Str) :
    List Str × List Event :=
  if matchesExt f o then
    if existsIn st.1 (newNameF o n f)
        && !(normcase (joinP d f) == normcase (joinP d (newNameF o n f))) then
      (st.1, st.2 ++ [Event.skipped d f (newNameF o n f)])
    else
      (renameIn st.1 f (newNameF o n f), st.2 ++ [Event.renamed d f (newNameF o n f)])
  else st

/-- Process one directory of the walk: fold `stepFile` over the
snapshot of its file listing (the `files` of `os.walk`), starting from
that same listing. -/
def processDir (d o n : Str) (files : List Str) : List Str × List Event :=
  files.foldl (stepFile d o n) (files, [])

/-- The `for root, dirs, files in os.walk(path, topdown=False)` loop of
line 51: process each directory of the index in order, returning the
updated index and the concatenated events. -/
def runWalk (o n : Str) : Fs → Fs × List Event
  | [] => ([], [])
  | p :: rest =>
      ((p.1, (processDir p.1 o n p.2).1) :: (runWalk o n rest).1,
       (processDir p.1 o n p.2).2 ++ (runWalk o n rest).2)

/-- `os.path.isdir(path)`: the path occurs in the directory index. -/
def isdirB (path : Str) (fs : Fs) : Bool := fs.any fun p => p.1 == path

/-- `rename_extensions` (lines 40-62): raise `NotADirectoryError`
(modelled as `Except.error path`, carrying the offending path of the
message) before touching anything when `path` is not a directory;
otherwise normalize both extensions and run the walk. -/
def rename_extensions (path : Str) (fs : Fs) (rawOld rawNew : Str) :
    Except Str (Fs × List Event) :=
  if isdirB path fs then
    Except.ok (runWalk (normalize_ext rawOld) (normalize_ext rawNew) fs)
  else
    Except.error path

/-- `safe_rename` (lines 28-37), returned as the list of primitive
`os.rename(src, dst)` calls it performs.  `temp` is the randomly
generated unique name (`str(uuid.uuid4())`), passed as a parameter
since its value is irrelevant to the control flow. -/
def safe_rename (oldPath newPath temp : Str) : List (Str × Str) :=
  if normcase oldPath == normcase newPath then
    [(oldPath, joinP (dirname oldPath) temp),
     (joinP (dirname oldPath) temp, newPath)]
  else
    [(oldPath, newPath)]

/-- Modelled from the spec: the ExtensionSpec invariant of section 3 —
non-empty, starts with `.`, all lowercase, no internal whitespace (no
whitespace strictly between the first and the last character). -/
def extensionSpecInv (l : Str) : Bool :=
  !l.isEmpty && startsDot l && l.all (fun c => toLower c == c)
    && ((l.drop 1).dropLast.all fun c => !isSpaceB c)

/-- Whether an event is compatible with a second run finding nothing:
a rename whose destination name still matches the old extension would
be picked up again. -/
def destOk (o : Str) : Event → Bool
  | .renamed _ _ nn => !(matchesExt nn o)
  | .skipped _ _ _ => true

/-- Case-insensitive uniqueness of a directory listing, the invariant a
real case-insensitive filesystem guarantees: no two entries share a
`normcase` image. -/
def CInodup (l : List Str) : Prop := (l.map normcase).Nodup

instance (l : List Str) : Decidable (CInodup l) :=
  inferInstanceAs (Decidable ((l.map normcase).Nodup))

/-! ## Lemmas about lowercasing, stripping and normalization -/

lemma toLower_toLower (c : Nat) : toLower (toLower c) = toLower c := by
  by_cases h : 65 ≤ c ∧ c ≤ 90
  · rw [show toLower c = c + 32 by simp [toLower, h]]
    simp only [toLower]
    rw [if_neg (by omega)]
  · simp [toLower, h]

lemma toLower_eq_dot {c : Nat} : toLower c = 46 ↔ c = 46 := by
  simp only [toLower]
  split
  · rename_i h; omega
  · exact Iff.rfl

lemma isSpaceB_toLower (c : Nat) : isSpaceB (toLower c) = isSpaceB c := by
  simp only [toLower]
  split
  · rename_i h
    have h1 : isSpaceB (c + 32) = false := by
      simp only [isSpaceB, Bool.or_eq_false_iff, beq_eq_false_iff_ne, ne_eq]
      omega
    have h2 : isSpaceB c = false := by
      simp only [isSpaceB, Bool.or_eq_false_iff, beq_eq_false_iff_ne, ne_eq]
      omega
    rw [h1, h2]
  · rfl

lemma head?_dropWhile_not (p : Nat → Bool) :
    ∀ (l : List Nat) {c : Nat}, (l.dropWhile p).head? = some c → p c = false := by
  intro l
  induction l with
  | nil => intro c h; simp [List.dropWhile] at h
  | cons a t ih =>
      intro c h
      rw [List.dropWhile_cons] at h
      by_cases hp : p a
      · rw [if_pos hp] at h; exact ih h
      · rw [if_neg hp] at h
        rw [List.head?_cons] at h
        injection h with h2
        subst h2
        cases hpa : p a with
        | true => exact absurd hpa hp
        | false => rfl

lemma dropWhile_eq_self (p : Nat → Bool) (l : List Nat)
    (h : ∀ c, l.head? = some c → p c = false) : l.dropWhile p = l := by
  cases l with
  | nil => rfl
  | cons a t =>
      have hpa : p a = false := h a rfl
      rw [List.dropWhile_cons, if_neg (by simp [hpa])]

lemma strip_getLast?_not_space {l : Str} {c : Nat}
    (h : (strip l).getLast? = some c) : isSpaceB c = false := by
  simp only [strip] at h
  rw [List.getLast?_reverse] at h
  exact head?_dropWhile_not _ _ h

lemma map_toLower_idem (l : Str) : (l.map toLower).map toLower = l.map toLower := by
  rw [List.map_map]
  exact List.map_congr_left fun a _ => toLower_toLower a

lemma getLast?_map_toLower (l : Str) :
    (l.map toLower).getLast? = l.getLast?.map toLower := by
  calc (l.map toLower).getLast?
      = (l.map toLower).reverse.head? := (List.head?_reverse _).symm
    _ = (l.reverse.map toLower).head? := by rw [← List.map_reverse]
    _ = l.reverse.head?.map toLower := List.head?_map _ _
    _ = l.getLast?.map toLower := by rw [List.head?_reverse]

lemma normalize_ext_shape (x : Str) : ∃ t, normalize_ext x = 46 :: t := by
  unfold normalize_ext
  split
  · rename_i h
    cases hs : (strip x).map toLower with
    | nil => rw [hs] at h; simp [startsDot] at h
    | cons a t =>
        rw [hs] at h
        simp only [startsDot, beq_iff_eq] at h
        subst h
        exact ⟨t, rfl⟩
  · exact ⟨_, rfl⟩

lemma normalize_ext_lower (x : Str) :
    (normalize_ext x).map toLower = normalize_ext x := by
  unfold normalize_ext
  split
  · exact map_toLower_idem _
  · rw [List.map_cons, map_toLower_idem, show toLower 46 = 46 by decide]

lemma normalize_ext_getLast_not_space {x : Str} {c : Nat}
    (h : (normalize_ext x).getLast? = some c) : isSpaceB c = false := by
  have base : ∀ {c₀ : Nat}, ((strip x).map toLower).getLast? = some c₀ →
      isSpaceB c₀ = false := by
    intro c₀ hc
    rw [getLast?_map_toLower] at hc
    cases hg : (strip x).getLast? with
    | none => rw [hg] at hc; simp at hc
    | some b =>
        rw [hg] at hc
        simp only [Option.map_some'] at hc
        injection hc with hc2
        rw [← hc2, isSpaceB_toLower]
        exact strip_getLast?_not_space hg
  unfold normalize_ext at h
  split at h
  · exact base h
  · cases hm : (strip x).map toLower with
    | nil =>
        rw [hm] at h
        simp only [List.getLast?_singleton] at h
        injection h with h2
        rw [← h2]
        decide
    | cons a t =>
        rw [hm, List.getLast?_cons_cons] at h
        exact base (by rw [hm]; exact h)

lemma strip_normalize (x : Str) : strip (normalize_ext x) = normalize_ext x := by
  obtain ⟨t, ht⟩ := normalize_ext_shape x
  have h1 : (normalize_ext x).dropWhile isSpaceB = normalize_ext x := by
    apply dropWhile_eq_self
    intro c hc
    rw [ht, List.head?_cons] at hc
    injection hc with h2
    rw [← h2]
    decide
  have h2 : (normalize_ext x).reverse.dropWhile isSpaceB = (normalize_ext x).reverse := by
    apply dropWhile_eq_self
    intro c hc
    rw [List.head?_reverse] at hc
    exact normalize_ext_getLast_not_space hc
  simp only [strip]
  rw [h1, h2, List.reverse_reverse]

/-- **C9** The Extension Normalizer is idempotent: for every string `x`,
`normalize(normalize(x)) == normalize(x)`. -/
theorem c9_normalize_idempotent (x : Str) :
    normalize_ext (normalize_ext x) = normalize_ext x := by
  obtain ⟨t, ht⟩ := normalize_ext_shape x
  have hlow : (strip (normalize_ext x)).map toLower = normalize_ext x := by
    rw [strip_normalize, normalize_ext_lower]
  have key : ∀ y : Str, (strip y).map toLower = y → startsDot y = true →
      normalize_ext y = y := by
    intro y hy hs
    unfold normalize_ext
    rw [hy, if_pos hs]
  exact key _ hlow (by rw [ht]; rfl)

lemma map_toLower_eq_dot (z : Str) : z.map toLower = [46] ↔ z = [46] := by
  cases z with
  | nil => simp
  | cons a t =>
      simp only [List.map_cons, List.cons.injEq, List.map_eq_nil_iff]
      exact and_congr toLower_eq_dot Iff.rfl

/-- **C7 counterexample** The ExtensionSpec invariant demands "no internal
whitespace", but `normalize_ext` only trims leading/trailing whitespace
(`str.strip`): on input `"a b"` it returns `".a b"`, which keeps the
internal space, so the invariant fails. -/
theorem c7_counterexample : extensionSpecInv (normalize_ext [97, 32, 98]) = false := by
  decide

/-- **C7 (amended)** For every input string, the output of the Extension
Normalizer is non-empty, starts with `'.'` and is all lowercase.  (The
original claim's further conjunct "contains no internal whitespace" is
false, see the counterexample: internal whitespace of the input is kept.) -/
theorem c7_invariant_amended (x : Str) :
    0 < (normalize_ext x).length ∧ (normalize_ext x).head? = some 46 ∧
      (normalize_ext x).all (fun c => toLower c == c) = true := by
  obtain ⟨t, ht⟩ := normalize_ext_shape x
  refine ⟨by rw [ht]; simp, by rw [ht]; rfl, ?_⟩
  rw [List.all_eq_true]
  intro c hc
  have hfixc : toLower c = c := by
    have hfix := normalize_ext_lower x
    rw [← hfix] at hc
    obtain ⟨b, _, hbc⟩ := List.mem_map.mp hc
    rw [← hbc]
    exact toLower_toLower b
  simp [hfixc]

/-- **C8 counterexample** An input that is empty after trimming does
normalize to `"."`, but with that extension the matcher does *not* match
file names with no extension at all: `"README"` contains no dot, yet
`matchesExt "README" "."` is `false` (the code tests
`fname.lower().endswith(".")`, which requires a trailing dot). -/
theorem c8_counterexample :
    normalize_ext [32] = [46] ∧
      matchesExt [82, 69, 65, 68, 77, 69] (normalize_ext [32]) = false ∧
      ([82, 69, 65, 68, 77, 69] : Str).all (fun c => !(c == 46)) = true := by
  decide

/-- **C8 (amended)** An old-extension input that is empty after trimming
normalizes to the extension `"."`, and with that extension the matcher
matches exactly the file names that end with a dot (not the file names
with no extension at all). -/
theorem c8_empty_ext_amended (x f : Str) (h : strip x = []) :
    normalize_ext x = [46] ∧ matchesExt f [46] = endswith f [46] := by
  constructor
  · unfold normalize_ext
    rw [h]
    rfl
  · unfold matchesExt endswith
    rw [List.length_map, ← List.map_drop]
    rw [Bool.eq_iff_iff]
    simp only [beq_iff_eq]
    exact map_toLower_eq_dot _

/-- Witness for C8 (amended): the input `"  "` is empty after trimming
and the file name `"a."` ends with a dot. -/
theorem c8_empty_ext_amended_witness :
    normalize_ext [32, 32] = [46] ∧
      matchesExt [97, 46] [46] = endswith [97, 46] [46] :=
  c8_empty_ext_amended [32, 32] [97, 46] (by decide)

/-- **C3** `safe_rename` performs the two-step rename (source to the
temporary name inside `dirname source`, then the temporary name to the
destination) exactly when `normcase` maps source and destination to the
same path, i.e. when they are case-insensitively identical; in every
other case it performs the single direct rename (lines 28-37). -/
theorem c3_safe_rename_two_step (src dst temp : Str) :
    (normcase src = normcase dst →
      safe_rename src dst temp =
        [(src, joinP (dirname src) temp), (joinP (dirname src) temp, dst)]) ∧
    (normcase src ≠ normcase dst → safe_rename src dst temp = [(src, dst)]) := by
  constructor
  · intro h
    unfold safe_rename
    rw [if_pos (by simp [beq_iff_eq, h])]
  · intro h
    unfold safe_rename
    rw [if_neg (by simp only [beq_iff_eq]; exact h)]

/-- Witness for C3: `"r/A.TXT" → "r/a.txt"` is a case-only rename and
goes through the temporary name; `"r/a.old" → "r/a.new"` is a single
direct rename. -/
theorem c3_safe_rename_two_step_witness :
    safe_rename [114, 47, 65, 46, 84, 88, 84] [114, 47, 97, 46, 116, 120, 116] [117] =
      [([114, 47, 65, 46, 84, 88, 84], joinP (dirname [114, 47, 65, 46, 84, 88, 84]) [117]),
       (joinP (dirname [114, 47, 65, 46, 84, 88, 84]) [117], [114, 47, 97, 46, 116, 120, 116])] ∧
    safe_rename [114, 47, 97, 46, 111, 108, 100] [114, 47, 97, 46, 110, 101, 119] [117] =
      [([114, 47, 97, 46, 111, 108, 100], [114, 47, 97, 46, 110, 101, 119])] :=
  ⟨(c3_safe_rename_two_step _ _ _).1 (by decide),
   (c3_safe_rename_two_step _ _ _).2 (by decide)⟩

/-- **C5** When the root is not an existing directory,
`rename_extensions` fails with `NotADirectoryError` (modelled as
`Except.error root`).  The check is the first statement of the function
(line 45), before the walk starts, so the error result carries no
updated filesystem and no events: zero mutations were performed. -/
theorem c5_invalid_root (root : Str) (fs : Fs) (rawOld rawNew : Str)
    (h : isdirB root fs = false) :
    rename_extensions root fs rawOld rawNew = Except.error root := by
  unfold rename_extensions
  rw [if_neg (by simp [h])]

/-- Witness for C5: the path `"r"` does not occur in an empty directory
index. -/
theorem c5_invalid_root_witness :
    isdirB [114] [] = false ∧
      rename_extensions [114] [] [111, 108, 100] [110, 101, 119] = Except.error [114] :=
  ⟨by decide, c5_invalid_root _ _ _ _ (by decide)⟩

/-! ## Lemmas about the per-file step and the directory fold -/

lemma stepFile_not_matches {f o : Str} (d n : Str) (st : List Str × List Event)
    (h : matchesExt f o = false) : stepFile d o n st f = st := by
  simp [stepFile, h]

lemma stepFile_skip_eq {f o : Str} (d n : Str) (st : List Str × List Event)
    (hm : matchesExt f o = true)
    (hc : (existsIn st.1 (newNameF o n f)
        && !(normcase (joinP d f) == normcase (joinP d (newNameF o n f)))) = true) :
    stepFile d o n st f = (st.1, st.2 ++ [Event.skipped d f (newNameF o n f)]) := by
  simp [stepFile, hm, hc]

lemma stepFile_ren_eq {f o : Str} (d n : Str) (st : List Str × List Event)
    (hm : matchesExt f o = true)
    (hc : (existsIn st.1 (newNameF o n f)
        && !(normcase (joinP d f) == normcase (joinP d (newNameF o n f)))) = false) :
    stepFile d o n st f =
      (renameIn st.1 f (newNameF o n f), st.2 ++ [Event.renamed d f (newNameF o n f)]) := by
  simp [stepFile, hm, hc]

lemma stepFile_matches_cases {f o : Str} (d n : Str) (st : List Str × List Event)
    (hm : matchesExt f o = true) :
    stepFile d o n st f = (st.1, st.2 ++ [Event.skipped d f (newNameF o n f)]) ∨
    stepFile d o n st f =
      (renameIn st.1 f (newNameF o n f), st.2 ++ [Event.renamed d f (newNameF o n f)]) := by
  cases hc : existsIn st.1 (newNameF o n f)
      && !(normcase (joinP d f) == normcase (joinP d (newNameF o n f))) with
  | true => exact Or.inl (stepFile_skip_eq d n st hm hc)
  | false => exact Or.inr (stepFile_ren_eq d n st hm hc)

lemma mem_stepFile_evs {d o n f : Str} {st : List Str × List Event} {ev : Event}
    (h : ev ∈ st.2) : ev ∈ (stepFile d o n st f).2 := by
  by_cases hm : matchesExt f o
  · rcases stepFile_matches_cases d n st hm with hh | hh <;> rw [hh] <;>
      exact List.mem_append_left _ h
  · rw [stepFile_not_matches d n st (Bool.eq_false_iff.mpr hm)]
    exact h

lemma stepFile_evs_src {d o n f : Str} {st : List Str × List Event} {ev : Event} :
    ev ∈ (stepFile d o n st f).2 → ev ∈ st.2 ∨ evDir ev = d := by
  by_cases hm : matchesExt f o
  · rcases stepFile_matches_cases d n st hm with hh | hh <;> rw [hh] <;> intro h <;>
      rcases List.mem_append.mp h with h1 | h1
    · exact Or.inl h1
    · rw [List.mem_singleton] at h1
      subst h1
      exact Or.inr rfl
    · exact Or.inl h1
    · rw [List.mem_singleton] at h1
      subst h1
      exact Or.inr rfl
  · rw [stepFile_not_matches d n st (Bool.eq_false_iff.mpr hm)]
    exact Or.inl

lemma mem_foldl_evs {d o n : Str} {ev : Event} :
    ∀ (R : List Str) (st : List Str × List Event), ev ∈ st.2 →
      ev ∈ (R.foldl (stepFile d o n) st).2 := by
  intro R
  induction R with
  | nil => intro st h; exact h
  | cons g R ih =>
      intro st h
      rw [List.foldl_cons]
      exact ih _ (mem_stepFile_evs h)

lemma foldl_evs_src {d o n : Str} {ev : Event} :
    ∀ (R : List Str) (st : List Str × List Event),
      ev ∈ (R.foldl (stepFile d o n) st).2 → ev ∈ st.2 ∨ evDir ev = d := by
  intro R
  induction R with
  | nil => intro st h; exact Or.inl h
  | cons g R ih =>
      intro st h
      rw [List.foldl_cons] at h
      rcases ih _ h with h1 | h1
      · exact stepFile_evs_src h1
      · exact Or.inr h1

lemma fold_untouched {o : Str} (d n f : Str) (hf : matchesExt f o = false) :
    ∀ (R : List Str) (st : List Str × List Event),
      f ∈ st.1 →
      (∀ nn, Event.renamed d f nn ∉ st.2 ∧ Event.skipped d f nn ∉ st.2) →
      f ∈ (R.foldl (stepFile d o n) st).1 ∧
      (∀ nn, Event.renamed d f nn ∉ (R.foldl (stepFile d o n) st).2 ∧
             Event.skipped d f nn ∉ (R.foldl (stepFile d o n) st).2) := by
  intro R
  induction R with
  | nil => intro st h1 h2; exact ⟨h1, h2⟩
  | cons g R ih =>
      intro st h1 h2
      rw [List.foldl_cons]
      by_cases hm : matchesExt g o
      · have hgf : g ≠ f := by
          intro he
          rw [he, hf] at hm
          exact Bool.noConfusion hm
        rcases stepFile_matches_cases d n st hm with hh | hh
        · refine ih _ ?_ ?_
          · rw [hh]; exact h1
          · rw [hh]
            intro nn
            constructor
            · intro hmem
              rcases List.mem_append.mp hmem with h3 | h3
              · exact (h2 nn).1 h3
              · rw [List.mem_singleton] at h3
                exact Event.noConfusion h3
            · intro hmem
              rcases List.mem_append.mp hmem with h3 | h3
              · exact (h2 nn).2 h3
              · rw [List.mem_singleton] at h3
                injection h3 with e1 e2 e3
                exact hgf e2.symm
        · refine ih _ ?_ ?_
          · rw [hh]
            simp only [renameIn]
            exact List.mem_cons_of_mem _ ((List.mem_erase_of_ne (Ne.symm hgf)).mpr h1)
          · rw [hh]
            intro nn
            constructor
            · intro hmem
              rcases List.mem_append.mp hmem with h3 | h3
              · exact (h2 nn).1 h3
              · rw [List.mem_singleton] at h3
                injection h3 with e1 e2 e3
                exact hgf e2.symm
            · intro hmem
              rcases List.mem_append.mp hmem with h3 | h3
              · exact (h2 nn).2 h3
              · rw [List.mem_singleton] at h3
                exact Event.noConfusion h3
      · rw [stepFile_not_matches d n st (Bool.eq_false_iff.mpr hm)]
        exact ih st h1 h2

lemma normcase_joinP (d a b : Str) :
    normcase (joinP d a) = normcase (joinP d b) ↔ normcase a = normcase b := by
  simp only [normcase, joinP, sep, List.map_append, List.map_cons,
    show toLower 47 = 47 from by decide]
  rw [List.append_cancel_left_eq]
  simp

lemma fold_id {o : Str} (d n : Str) :
    ∀ (R : List Str) (st : List Str × List Event),
      (∀ g ∈ R, matchesExt g o = false) → R.foldl (stepFile d o n) st = st := by
  intro R
  induction R with
  | nil => intro st _; rfl
  | cons g R ih =>
      intro st h
      rw [List.foldl_cons, stepFile_not_matches d n st (h g (List.mem_cons_self g R))]
      exact ih st fun q hq => h q (List.mem_cons_of_mem _ hq)

lemma fold_inv {o : Str} (d n : Str) :
    ∀ (R : List Str) (st : List Str × List Event),
      CInodup st.1 → R.Nodup →
      (∀ g ∈ R, matchesExt g o = true → g ∈ st.1) →
      (∀ g ∈ st.1, matchesExt g o = false ∨ g ∈ R ∨
        (∃ nn, Event.skipped d g nn ∈ st.2) ∨ (∃ f0, Event.renamed d f0 g ∈ st.2)) →
      CInodup (R.foldl (stepFile d o n) st).1 ∧
      ∀ g ∈ (R.foldl (stepFile d o n) st).1, matchesExt g o = false ∨
        (∃ nn, Event.skipped d g nn ∈ (R.foldl (stepFile d o n) st).2) ∨
        (∃ f0, Event.renamed d f0 g ∈ (R.foldl (stepFile d o n) st).2) := by
  intro R
  induction R with
  | nil =>
      intro st hci _ _ hinv
      refine ⟨hci, ?_⟩
      intro g hg
      rcases hinv g hg with h | h | h | h
      · exact Or.inl h
      · exact absurd h (List.not_mem_nil g)
      · exact Or.inr (Or.inl h)
      · exact Or.inr (Or.inr h)
  | cons g₀ R ih =>
      intro st hci hR hRin hinv
      rw [List.foldl_cons]
      have hRnd : R.Nodup := (List.nodup_cons.mp hR).2
      have hg₀R : g₀ ∉ R := (List.nodup_cons.mp hR).1
      by_cases hm : matchesExt g₀ o
      · cases hc : existsIn st.1 (newNameF o n g₀)
            && !(normcase (joinP d g₀) == normcase (joinP d (newNameF o n g₀))) with
        | true =>
            rw [stepFile_skip_eq d n st hm hc]
            refine ih _ hci hRnd ?_ ?_
            · intro g hg hmg
              exact hRin g (List.mem_cons_of_mem _ hg) hmg
            · intro g hg
              rcases hinv g hg with h | h | h | h
              · exact Or.inl h
              · rcases List.mem_cons.mp h with h2 | h2
                · subst h2
                  exact Or.inr (Or.inr (Or.inl ⟨newNameF o n g, List.mem_append_right _
                    (List.mem_singleton.mpr rfl)⟩))
                · exact Or.inr (Or.inl h2)
              · rcases h with ⟨nn, hnn⟩
                exact Or.inr (Or.inr (Or.inl ⟨nn, List.mem_append_left _ hnn⟩))
              · rcases h with ⟨f0, hf0⟩
                exact Or.inr (Or.inr (Or.inr ⟨f0, List.mem_append_left _ hf0⟩))
        | false =>
            rw [stepFile_ren_eq d n st hm hc]
            have hnodup : st.1.Nodup := List.Nodup.of_map normcase hci
            have hg₀st : g₀ ∈ st.1 := hRin g₀ (List.mem_cons_self g₀ R) hm
            have hci2 : CInodup (renameIn st.1 g₀ (newNameF o n g₀)) := by
              simp only [CInodup, renameIn, List.map_cons, List.nodup_cons]
              constructor
              · intro hmem
                obtain ⟨h, hh, hheq⟩ := List.mem_map.mp hmem
                have hhst : h ∈ st.1 := List.mem_of_mem_erase hh
                have hhne : h ≠ g₀ := (hnodup.mem_erase_iff.mp hh).1
                rcases Bool.and_eq_false_iff.mp hc with hex | hpe
                · have := (List.any_eq_false.mp hex) h hhst
                  exact this (by simp [beq_iff_eq, hheq])
                · simp at hpe
                  have hgeq : normcase g₀ = normcase (newNameF o n g₀) :=
                    (normcase_joinP d g₀ (newNameF o n g₀)).mp hpe
                  have : h = g₀ := List.inj_on_of_nodup_map hci hhst hg₀st
                    (by rw [hheq, ← hgeq])
                  exact hhne this
              · exact List.Nodup.sublist ((st.1.erase_sublist g₀).map normcase) hci
            refine ih _ hci2 hRnd ?_ ?_
            · intro g hg hmg
              have hgne : g ≠ g₀ := fun he => hg₀R (he ▸ hg)
              have : g ∈ st.1 := hRin g (List.mem_cons_of_mem _ hg) hmg
              simp only [renameIn]
              exact List.mem_cons_of_mem _ ((List.mem_erase_of_ne hgne).mpr this)
            · intro g hg
              simp only [renameIn] at hg
              rcases List.mem_cons.mp hg with h2 | h2
              · subst h2
                exact Or.inr (Or.inr (Or.inr ⟨g₀, List.mem_append_right _
                  (List.mem_singleton.mpr rfl)⟩))
              · have hgmem : g ∈ st.1 := (hnodup.mem_erase_iff.mp h2).2
                have hgne : g ≠ g₀ := (hnodup.mem_erase_iff.mp h2).1
                rcases hinv g hgmem with h | h | h | h
                · exact Or.inl h
                · rcases List.mem_cons.mp h with h3 | h3
                  · exact absurd h3 hgne
                  · exact Or.inr (Or.inl h3)
                · rcases h with ⟨nn, hnn⟩
                  exact Or.inr (Or.inr (Or.inl ⟨nn, List.mem_append_left _ hnn⟩))
                · rcases h with ⟨f0, hf0⟩
                  exact Or.inr (Or.inr (Or.inr ⟨f0, List.mem_append_left _ hf0⟩))
      · rw [stepFile_not_matches d n st (Bool.eq_false_iff.mpr hm)]
        refine ih st hci hRnd ?_ ?_
        · intro g hg hmg
          exact hRin g (List.mem_cons_of_mem _ hg) hmg
        · intro g hg
          rcases hinv g hg with h | h | h | h
          · exact Or.inl h
          · rcases List.mem_cons.mp h with h2 | h2
            · subst h2
              exact Or.inl (Bool.eq_false_iff.mpr hm)
            · exact Or.inr (Or.inl h2)
          · exact Or.inr (Or.inr (Or.inl h))
          · exact Or.inr (Or.inr (Or.inr h))

/-! ## Lemmas about the whole walk -/

lemma runWalk_fst (o n : Str) : ∀ fs : Fs,
    ((runWalk o n fs).1).map Prod.fst = fs.map Prod.fst := by
  intro fs
  induction fs with
  | nil => rfl
  | cons p rest ih => simp [runWalk, ih]

lemma any_fst_eq (root : Str) (l : Fs) :
    (l.any fun p => p.1 == root) = ((l.map Prod.fst).any fun x => x == root) := by
  induction l with
  | nil => rfl
  | cons a t ih => simp [List.any_cons, ih]

lemma isdirB_runWalk (root o n : Str) (fs : Fs) :
    isdirB root (runWalk o n fs).1 = isdirB root fs := by
  unfold isdirB
  rw [any_fst_eq, any_fst_eq, runWalk_fst]

lemma mem_runWalk_of_mem (o n : Str) :
    ∀ (fs : Fs) (p : Str × List Str), p ∈ fs →
      (p.1, (processDir p.1 o n p.2).1) ∈ (runWalk o n fs).1 ∧
      ∀ ev ∈ (processDir p.1 o n p.2).2, ev ∈ (runWalk o n fs).2 := by
  intro fs
  induction fs with
  | nil => intro p h; exact absurd h (List.not_mem_nil p)
  | cons q rest ih =>
      intro p h
      rcases List.mem_cons.mp h with h2 | h2
      · subst h2
        exact ⟨List.mem_cons_self _ _, fun ev hev => List.mem_append_left _ hev⟩
      · obtain ⟨h3, h4⟩ := ih p h2
        exact ⟨List.mem_cons_of_mem _ h3,
          fun ev hev => List.mem_append_right _ (h4 ev hev)⟩

lemma runWalk_evs_src (o n : Str) :
    ∀ (fs : Fs) (ev : Event), ev ∈ (runWalk o n fs).2 →
      ∃ p ∈ fs, ev ∈ (processDir p.1 o n p.2).2 := by
  intro fs
  induction fs with
  | nil => intro ev h; exact absurd h (List.not_mem_nil ev)
  | cons q rest ih =>
      intro ev h
      rcases List.mem_append.mp h with h2 | h2
      · exact ⟨q, List.mem_cons_self q rest, h2⟩
      · obtain ⟨p, hp, hev⟩ := ih ev h2
        exact ⟨p, List.mem_cons_of_mem _ hp, hev⟩

lemma mem_runWalk_entry (o n : Str) :
    ∀ (fs : Fs) (q : Str × List Str), q ∈ (runWalk o n fs).1 →
      ∃ p ∈ fs, q = (p.1, (processDir p.1 o n p.2).1) := by
  intro fs
  induction fs with
  | nil => intro q h; exact absurd h (List.not_mem_nil q)
  | cons r rest ih =>
      intro q h
      rcases List.mem_cons.mp h with h2 | h2
      · exact ⟨r, List.mem_cons_self r rest, h2⟩
      · obtain ⟨p, hp, hq⟩ := ih q h2
        exact ⟨p, List.mem_cons_of_mem _ hp, hq⟩

lemma runWalk_id {o : Str} (n : Str) :
    ∀ fs : Fs, (∀ p ∈ fs, ∀ g ∈ p.2, matchesExt g o = false) →
      runWalk o n fs = (fs, []) := by
  intro fs
  induction fs with
  | nil => intro _; rfl
  | cons p rest ih =>
      intro h
      have h1 : processDir p.1 o n p.2 = (p.2, []) := by
        unfold processDir
        exact fold_id p.1 n p.2 (p.2, []) (h p (List.mem_cons_self p rest))
      have h2 : runWalk o n rest = (rest, []) :=
        ih fun q hq => h q (List.mem_cons_of_mem _ hq)
      simp [runWalk, h1, h2]

lemma run_ok_elim {root : Str} {fs : Fs} {rawOld rawNew : Str} {fs₁ : Fs}
    {evs : List Event}
    (h : rename_extensions root fs rawOld rawNew = Except.ok (fs₁, evs)) :
    isdirB root fs = true ∧
    runWalk (normalize_ext rawOld) (normalize_ext rawNew) fs = (fs₁, evs) := by
  by_cases hdir : isdirB root fs
  · refine ⟨hdir, ?_⟩
    unfold rename_extensions at h
    rw [if_pos hdir] at h
    injection h with h2
  · unfold rename_extensions at h
    rw [if_neg hdir] at h
    exact Except.noConfusion h

lemma skipReport_filter (evs : List Event) :
    skipReport evs = (evs.filter isSkipped).map skipPairOf := by
  induction evs with
  | nil => rfl
  | cons e t ih =>
      cases e with
      | renamed d f nn =>
          rw [show skipReport (Event.renamed d f nn :: t) = skipReport t from rfl,
            show (Event.renamed d f nn :: t).filter isSkipped = t.filter isSkipped from rfl]
          exact ih
      | skipped d f nn =>
          rw [show skipReport (Event.skipped d f nn :: t)
                = (joinP d f, strTargetExists) :: skipReport t from rfl,
            show (Event.skipped d f nn :: t).filter isSkipped
                = Event.skipped d f nn :: t.filter isSkipped from rfl,
            List.map_cons, ih]
          rfl

lemma skipReport_reason (evs : List Event) :
    ∀ pr ∈ skipReport evs, pr.2 = strTargetExists := by
  intro pr hpr
  simp only [skipReport] at hpr
  obtain ⟨e, _, heq⟩ := List.mem_filterMap.mp hpr
  cases e with
  | renamed d f nn => exact Option.noConfusion heq
  | skipped d f nn =>
      injection heq with h2
      rw [← h2]

/-- **C1** Every successful `rename_extensions` call yields, next to the
updated directory index, an ordered SkipReport: exactly one
`(source path, "target exists")` pair per skipped collision of that
single walk, in walk order (each pair is the warning printed on
line 60), and every pair's reason is `"target exists"`. -/
theorem c1_skip_report (root : Str) (fs : Fs) (rawOld rawNew : Str) (fs₁ : Fs)
    (evs : List Event)
    (h : rename_extensions root fs rawOld rawNew = Except.ok (fs₁, evs)) :
    skipReport evs = (evs.filter isSkipped).map skipPairOf ∧
    ∀ pr ∈ skipReport evs, pr.2 = strTargetExists :=
  ⟨skipReport_filter evs, skipReport_reason evs⟩

/-- Witness for C1: a walk of `r` containing `x.old` and `x.new` skips
one collision and reports it once. -/
theorem c1_skip_report_witness :
    skipReport [Event.skipped [114] [120, 46, 111, 108, 100] [120, 46, 110, 101, 119]]
        = (([Event.skipped [114] [120, 46, 111, 108, 100] [120, 46, 110, 101, 119]]).filter
            isSkipped).map skipPairOf ∧
    ∀ pr ∈ skipReport [Event.skipped [114] [120, 46, 111, 108, 100] [120, 46, 110, 101, 119]],
      pr.2 = strTargetExists :=
  c1_skip_report [114] [([114], [[120, 46, 111, 108, 100], [120, 46, 110, 101, 119]])]
    [111, 108, 100] [110, 101, 119]
    [([114], [[120, 46, 111, 108, 100], [120, 46, 110, 101, 119]])]
    [Event.skipped [114] [120, 46, 111, 108, 100] [120, 46, 110, 101, 119]]
    (by rfl)

/-- **C2** For a matched file `f` of directory `d` whose candidate
destination name `nn` collides with an existing entry `g` of the
directory (same `normcase` image, i.e. the entry occupying the
destination path on the case-insensitive filesystem): if `g` is not
case-insensitively identical to the source, the file is skipped with
reason `"target exists"` (one report pair), the listing is unchanged
(nothing is overwritten) and the fold continues; if `g` is
case-insensitively identical to the source (case-only rename), the
rename proceeds. -/
theorem c2_collision_branch (d o n f g nn : Str) (cur : List Str) (evs : List Event)
    (hm : matchesExt f o = true)
    (hnn : nn = newNameF o n f)
    (hg : g ∈ cur)
    (hcoll : normcase g = normcase nn) :
    (normcase g ≠ normcase f →
      stepFile d o n (cur, evs) f = (cur, evs ++ [Event.skipped d f nn]) ∧
      skipReport (evs ++ [Event.skipped d f nn])
          = skipReport evs ++ [(joinP d f, strTargetExists)]) ∧
    (normcase g = normcase f →
      stepFile d o n (cur, evs) f = (renameIn cur f nn, evs ++ [Event.renamed d f nn])) := by
  subst hnn
  have hex : existsIn cur (newNameF o n f) = true := by
    rw [existsIn, List.any_eq_true]
    exact ⟨g, hg, by simp [beq_iff_eq, hcoll]⟩
  constructor
  · intro hne
    have hpne : normcase f ≠ normcase (newNameF o n f) := fun he =>
      hne (hcoll.trans he.symm)
    have hb : (normcase (joinP d f) == normcase (joinP d (newNameF o n f))) = false := by
      rw [beq_eq_false_iff_ne]
      exact fun he => hpne ((normcase_joinP d f _).mp he)
    have hc : (existsIn cur (newNameF o n f)
        && !(normcase (joinP d f) == normcase (joinP d (newNameF o n f)))) = true := by
      rw [hex, hb]
      rfl
    refine ⟨stepFile_skip_eq d n (cur, evs) hm hc, ?_⟩
    simp [skipReport, List.filterMap_append]
  · intro heq
    have hpeq : (normcase (joinP d f) == normcase (joinP d (newNameF o n f))) = true := by
      rw [beq_iff_eq]
      exact (normcase_joinP d f _).mpr (heq.symm.trans hcoll)
    have hc : (existsIn cur (newNameF o n f)
        && !(normcase (joinP d f) == normcase (joinP d (newNameF o n f)))) = false := by
      simp [hpeq]
    exact stepFile_ren_eq d n (cur, evs) hm hc

/-- Witness for C2: in directory `r` with listing `x.old, x.new`,
renaming `x.old` to `x.new` hits the distinct entry `x.new` and is
skipped with one `"target exists"` report pair. -/
theorem c2_collision_branch_witness :
    stepFile [114] [46, 111, 108, 100] [46, 110, 101, 119]
        ([[120, 46, 111, 108, 100], [120, 46, 110, 101, 119]], []) [120, 46, 111, 108, 100]
      = ([[120, 46, 111, 108, 100], [120, 46, 110, 101, 119]],
         [Event.skipped [114] [120, 46, 111, 108, 100] [120, 46, 110, 101, 119]]) ∧
    skipReport [Event.skipped [114] [120, 46, 111, 108, 100] [120, 46, 110, 101, 119]]
      = skipReport [] ++ [(joinP [114] [120, 46, 111, 108, 100], strTargetExists)] :=
  (c2_collision_branch [114] [46, 111, 108, 100] [46, 110, 101, 119]
    [120, 46, 111, 108, 100] [120, 46, 110, 101, 119] [120, 46, 110, 101, 119]
    [[120, 46, 111, 108, 100], [120, 46, 110, 101, 119]] []
    (by decide) (by decide) (by decide) (by decide)).1 (by decide)

/-- **C4** During the walk a file `f` is selected iff its name ends with
the normalized old extension under case-insensitive comparison (the
code's `fname.lower().endswith(old_ext)` agrees with the
case-insensitive suffix test because the normalized extension is
already lowercase); when selected, the produced event carries the
candidate new name obtained by stripping exactly `len(old_ext)`
characters from the end of the original name and appending the
normalized new extension, and the destination stays in the same
directory `d` (the event's directory, used by `joinP d` for its path);
when not selected, the step changes nothing. -/
theorem c4_selection (rawOld rawNew d f : Str) (cur : List Str) (evs : List Event) :
    matchesExt f (normalize_ext rawOld) = endswithCI f (normalize_ext rawOld) ∧
    (matchesExt f (normalize_ext rawOld) = false →
      stepFile d (normalize_ext rawOld) (normalize_ext rawNew) (cur, evs) f = (cur, evs)) ∧
    (matchesExt f (normalize_ext rawOld) = true →
      stepFile d (normalize_ext rawOld) (normalize_ext rawNew) (cur, evs) f
          = (cur, evs ++ [Event.skipped d f
              (f.take (f.length - (normalize_ext rawOld).length) ++ normalize_ext rawNew)]) ∨
      stepFile d (normalize_ext rawOld) (normalize_ext rawNew) (cur, evs) f
          = (renameIn cur f
              (f.take (f.length - (normalize_ext rawOld).length) ++ normalize_ext rawNew),
             evs ++ [Event.renamed d f
              (f.take (f.length - (normalize_ext rawOld).length) ++ normalize_ext rawNew)])) := by
  refine ⟨?_, ?_, ?_⟩
  · unfold matchesExt endswithCI
    rw [normalize_ext_lower]
  · intro h
    exact stepFile_not_matches d (normalize_ext rawNew) (cur, evs) h
  · intro h
    exact stepFile_matches_cases d (normalize_ext rawNew) (cur, evs) h

/-- Witness for C4: `doc.txt` is not selected for `.old`, while `x.old`
is selected and produces the candidate name `x.new`. -/
theorem c4_selection_witness :
    stepFile [114] (normalize_ext [111, 108, 100]) (normalize_ext [110, 101, 119])
        ([[100, 111, 99, 46, 116, 120, 116]], []) [100, 111, 99, 46, 116, 120, 116]
      = ([[100, 111, 99, 46, 116, 120, 116]], []) ∧
    (stepFile [114] (normalize_ext [111, 108, 100]) (normalize_ext [110, 101, 119])
        ([[120, 46, 111, 108, 100]], []) [120, 46, 111, 108, 100]
      = ([[120, 46, 111, 108, 100]], [] ++ [Event.skipped [114] [120, 46, 111, 108, 100]
          (newNameF (normalize_ext [111, 108, 100]) (normalize_ext [110, 101, 119])
            [120, 46, 111, 108, 100])]) ∨
     stepFile [114] (normalize_ext [111, 108, 100]) (normalize_ext [110, 101, 119])
        ([[120, 46, 111, 108, 100]], []) [120, 46, 111, 108, 100]
      = (renameIn [[120, 46, 111, 108, 100]] [120, 46, 111, 108, 100]
          (newNameF (normalize_ext [111, 108, 100]) (normalize_ext [110, 101, 119])
            [120, 46, 111, 108, 100]),
         [] ++ [Event.renamed [114] [120, 46, 111, 108, 100]
          (newNameF (normalize_ext [111, 108, 100]) (normalize_ext [110, 101, 119])
            [120, 46, 111, 108, 100])])) :=
  ⟨(c4_selection [111, 108, 100] [110, 101, 119] [114] [100, 111, 99, 46, 116, 120, 116]
      [[100, 111, 99, 46, 116, 120, 116]] []).2.1 (by decide),
   (c4_selection [111, 108, 100] [110, 101, 119] [114] [120, 46, 111, 108, 100]
      [[120, 46, 111, 108, 100]] []).2.2 (by decide)⟩

/-- **C10** A file whose name does not end (case-insensitively) with the
normalized old extension is left completely untouched by the walk: it is
still present in its directory's final listing (never renamed or
overwritten) and no event — hence no report pair — names it as source. -/
theorem c10_nonmatching_untouched (root rawOld rawNew d f : Str) (fs fs₁ : Fs)
    (files : List Str) (evs : List Event)
    (hnd : (fs.map Prod.fst).Nodup)
    (hrun : rename_extensions root fs rawOld rawNew = Except.ok (fs₁, evs))
    (hd : (d, files) ∈ fs) (hf : f ∈ files)
    (hm : matchesExt f (normalize_ext rawOld) = false) :
    ∃ files₁, (d, files₁) ∈ fs₁ ∧ f ∈ files₁ ∧
      ∀ nn, Event.renamed d f nn ∉ evs ∧ Event.skipped d f nn ∉ evs := by
  obtain ⟨hdir, hok⟩ := run_ok_elim hrun
  obtain ⟨hmem, hevsub⟩ := mem_runWalk_of_mem (normalize_ext rawOld)
    (normalize_ext rawNew) fs (d, files) hd
  have hfold := fold_untouched (o := normalize_ext rawOld) d (normalize_ext rawNew) f hm
    files (files, []) hf (fun nn => ⟨List.not_mem_nil _, List.not_mem_nil _⟩)
  have hsrc : ∀ ev : Event, evDir ev = d → ev ∈ evs →
      ev ∈ (processDir d (normalize_ext rawOld) (normalize_ext rawNew) files).2 := by
    intro ev hevd hev
    have hev2 : ev ∈ (runWalk (normalize_ext rawOld) (normalize_ext rawNew) fs).2 := by
      rw [hok]
      exact hev
    obtain ⟨p, hp, hpe⟩ := runWalk_evs_src _ _ fs _ hev2
    have hpe2 : ev ∈ (p.2.foldl (stepFile p.1 (normalize_ext rawOld)
        (normalize_ext rawNew)) (p.2, [])).2 := hpe
    rcases foldl_evs_src _ _ hpe2 with h0 | h0
    · exact absurd h0 (List.not_mem_nil _)
    · have hpeq : p = (d, files) :=
        List.inj_on_of_nodup_map hnd hp hd (h0.symm.trans hevd)
      rw [hpeq] at hpe
      exact hpe
  refine ⟨(processDir d (normalize_ext rawOld) (normalize_ext rawNew) files).1, ?_,
    hfold.1, ?_⟩
  · have := hmem
    rw [hok] at this
    exact this
  · intro nn
    exact ⟨fun hev => (hfold.2 nn).1 (hsrc _ rfl hev),
           fun hev => (hfold.2 nn).2 (hsrc _ rfl hev)⟩

/-- Witness for C10: renaming `.old` to `.new` under `r` containing
`b.txt` and `a.old` leaves `b.txt` in place and unreported. -/
theorem c10_nonmatching_untouched_witness :
    ∃ files₁,
      ([114], files₁) ∈ [([114], [[97, 46, 110, 101, 119], [98, 46, 116, 120, 116]])] ∧
      [98, 46, 116, 120, 116] ∈ files₁ ∧
      ∀ nn, Event.renamed [114] [98, 46, 116, 120, 116] nn
              ∉ [Event.renamed [114] [97, 46, 111, 108, 100] [97, 46, 110, 101, 119]] ∧
            Event.skipped [114] [98, 46, 116, 120, 116] nn
              ∉ [Event.renamed [114] [97, 46, 111, 108, 100] [97, 46, 110, 101, 119]] :=
  c10_nonmatching_untouched [114] [111, 108, 100] [110, 101, 119] [114]
    [98, 46, 116, 120, 116]
    [([114], [[98, 46, 116, 120, 116], [97, 46, 111, 108, 100]])]
    [([114], [[97, 46, 110, 101, 119], [98, 46, 116, 120, 116]])]
    [[98, 46, 116, 120, 116], [97, 46, 111, 108, 100]]
    [Event.renamed [114] [97, 46, 111, 108, 100] [97, 46, 110, 101, 119]]
    (by decide) (by rfl) (by decide) (by decide) (by decide)

/-- **C6 counterexample** Re-running the same rename is not always
silent.  With `r` containing both `x.old` and `x.new`, renaming
`.old`→`.new` skips the collision and leaves the tree unchanged, so the
second run is the very same call on the very same index: it again finds
the matching file `x.old` and again reports one skip, not zero. -/
theorem c6_counterexample :
    rename_extensions [114] [([114], [[120, 46, 111, 108, 100], [120, 46, 110, 101, 119]])]
        [111, 108, 100] [110, 101, 119]
      = Except.ok ([([114], [[120, 46, 111, 108, 100], [120, 46, 110, 101, 119]])],
          [Event.skipped [114] [120, 46, 111, 108, 100] [120, 46, 110, 101, 119]]) ∧
    skipReport [Event.skipped [114] [120, 46, 111, 108, 100] [120, 46, 110, 101, 119]]
      = [(joinP [114] [120, 46, 111, 108, 100], strTargetExists)] := by
  constructor
  · rfl
  · rfl

/-- **C6 (amended)** Running the same rename twice makes the second run
find zero matching files, perform zero renames and report zero skips,
provided the first run skipped nothing and none of the destination
names it produced still matches the old extension (counterexamples
otherwise: a skipped file is still there to be skipped again, and a
destination name ending in the old extension is matched again), on
directory listings that are valid for a case-insensitive filesystem
(no two entries share a `normcase` image). -/
theorem c6_rerun_amended (root rawOld rawNew : Str) (fs fs₁ : Fs) (evs : List Event)
    (hCI : ∀ p ∈ fs, CInodup p.2)
    (hrun : rename_extensions root fs rawOld rawNew = Except.ok (fs₁, evs))
    (hskips : ∀ ev ∈ evs, isSkipped ev = false)
    (hdest : ∀ ev ∈ evs, destOk (normalize_ext rawOld) ev = true) :
    (∀ p ∈ fs₁, ∀ g ∈ p.2, matchesExt g (normalize_ext rawOld) = false) ∧
    rename_extensions root fs₁ rawOld rawNew = Except.ok (fs₁, []) := by
  obtain ⟨hdir, hok⟩ := run_ok_elim hrun
  have hmain : ∀ p ∈ fs₁, ∀ g ∈ p.2, matchesExt g (normalize_ext rawOld) = false := by
    intro p₁ hp₁ g hg
    have hp₁w : p₁ ∈ (runWalk (normalize_ext rawOld) (normalize_ext rawNew) fs).1 := by
      rw [hok]
      exact hp₁
    obtain ⟨p, hp, hpe⟩ := mem_runWalk_entry _ _ fs p₁ hp₁w
    subst hpe
    have hCIp := hCI p hp
    have hfiles_nd : p.2.Nodup := List.Nodup.of_map normcase hCIp
    have hinv := fold_inv (o := normalize_ext rawOld) p.1 (normalize_ext rawNew) p.2
      (p.2, []) hCIp hfiles_nd (fun q hq _ => hq) (fun q hq => Or.inr (Or.inl hq))
    have hg' : g ∈ (p.2.foldl (stepFile p.1 (normalize_ext rawOld)
        (normalize_ext rawNew)) (p.2, [])).1 := hg
    have hevs : ∀ ev : Event,
        ev ∈ (p.2.foldl (stepFile p.1 (normalize_ext rawOld)
          (normalize_ext rawNew)) (p.2, [])).2 → ev ∈ evs := by
      intro ev hev
      have hsub := (mem_runWalk_of_mem (normalize_ext rawOld)
        (normalize_ext rawNew) fs p hp).2
      have : ev ∈ (runWalk (normalize_ext rawOld) (normalize_ext rawNew) fs).2 :=
        hsub ev hev
      rw [hok] at this
      exact this
    rcases hinv.2 g hg' with h | h | h
    · exact h
    · obtain ⟨nn, hnn⟩ := h
      have := hskips _ (hevs _ hnn)
      simp [isSkipped] at this
    · obtain ⟨f0, hf0⟩ := h
      have hdo := hdest _ (hevs _ hf0)
      simpa [destOk] using hdo
  refine ⟨hmain, ?_⟩
  have hdir₁ : isdirB root fs₁ = true := by
    have hw := isdirB_runWalk root (normalize_ext rawOld) (normalize_ext rawNew) fs
    rw [hok] at hw
    rw [hw, hdir]
  unfold rename_extensions
  rw [if_pos hdir₁, runWalk_id (normalize_ext rawNew) fs₁ hmain]

/-- Witness for C6 (amended): under `r` with `a.old` and `b.txt`, the
first `.old`→`.new` run renames cleanly, and the second run is a no-op
with empty event list. -/
theorem c6_rerun_amended_witness :
    (∀ p ∈ [([114], [[97, 46, 110, 101, 119], [98, 46, 116, 120, 116]])],
      ∀ g ∈ p.2, matchesExt g (normalize_ext [111, 108, 100]) = false) ∧
    rename_extensions [114] [([114], [[97, 46, 110, 101, 119], [98, 46, 116, 120, 116]])]
        [111, 108, 100] [110, 101, 119]
      = Except.ok ([([114], [[97, 46, 110, 101, 119], [98, 46, 116, 120, 116]])], []) :=
  c6_rerun_amended [114] [111, 108, 100] [110, 101, 119]
    [([114], [[98, 46, 116, 120, 116], [97, 46, 111, 108, 100]])]
    [([114], [[97, 46, 110, 101, 119], [98, 46, 116, 120, 116]])]
    [Event.renamed [114] [97, 46, 111, 108, 100] [97, 46, 110, 101, 119]]
    (by decide) (by rfl) (by decide) (by decide)

end RenameExtension
